import Mathlib

/-!
Shallow embedding of `search.go` from `golifes/dataframe-go`.

The source exposes a single function

  Search(ctx, s, lower, upper, r ...Range) ([]int, error)

which resolves an optional row range against the series, splits it into
one sub-range per CPU core, concurrently scans each sub-range for values
inside `[lower, upper]` (or equal to `lower` when the two bounds are
deep-equal), and concatenates the per-core partial results in core-index
order.  The embedding below models:

* the series as an abstract accessor (`Series`): row count, value lookup
  and the two injected comparison capabilities used by the code
  (`IsEqualFunc`, `IsLessThanFunc`);
* the external bounds resolver `Range.Limits`, which is not part of
  `src/search.go`, from the spec;
* the per-scanner cancellation behaviour by a stop threshold per scanner
  (`stops i = some t` means scanner `i` observes the cancelled context at
  every per-row check from row `t` onward, `none` means it never does) —
  the going context error is monotone, so each scanner's observations are
  upward closed along its ascending scan;
* the scheduler nondeterminism by the order (`sched`) in which the
  scanners commit their partial result into the shared map `mapRows`.
-/

namespace DataframeGo

/-- Errors visible in the embedding: the bounds resolver's invalid-range
error and the context cancellation error. -/
inductive Err where
  | invalidRange
  | cancelled
deriving DecidableEq

/-- Abstract view of a `Series`: row count, value accessor and the two
comparison capabilities `IsEqualFunc` / `IsLessThanFunc` that `Search`
uses (`s.NRows`, `s.Value`, `s.IsEqualFunc`, `s.IsLessThanFunc`). -/
structure Series (α : Type) where
  nrows : Nat
  value : Int → α
  isEqualFunc : α → α → Bool
  isLessThanFunc : α → α → Bool

/-- A `Range` request: optional start and end row (nil pointers in Go). -/
structure Range where
  start : Option Int
  stop : Option Int

/-- Modelled from the spec: the external Bounds Resolver `Range.Limits`
(not part of `src/search.go`).  It turns an optional, partially-specified
range request into concrete inclusive `(start, end)` indices, defaulting
to the column's full extent, and fails with an invalid-range error when
the request is malformed or out of bounds (start greater than end, or
outside `[0, rowCount)`). -/
def Range.Limits (r : Range) (n : Nat) : Except Err (Int × Int) :=
  let s := r.start.getD 0
  let e := r.stop.getD ((n : Int) - 1)
  if 0 ≤ s ∧ s ≤ e ∧ e < (n : Int) then Except.ok (s, e) else Except.error Err.invalidRange

/-- First element of the variadic range list; `Range{}` when absent
(`if len(r) == 0 { r = append(r, Range{}) }` followed by `r[0]`). -/
def headRange (r : List Range) : Range :=
  match r with
  | [] => Range.mk none none
  | a :: _ => a

/-- Chunk size per core: `div := (end - start + 1) / nCores`. -/
def chunk (start stop : Int) (nCores : Nat) : Int :=
  (stop - start + 1) / (nCores : Int)

/-- Sub-range assigned to scanner `i`
(`subStart = i*div`; `subEnd = (i+1)*div - 1`, or `end` for the last core).
Note the source does not add `start` to `subStart`. -/
def partitionOf (start stop : Int) (nCores : Nat) (i : Nat) : Int × Int :=
  if i = nCores - 1 then ((i : Int) * chunk start stop nCores, stop)
  else ((i : Int) * chunk start stop nCores, ((i : Int) + 1) * chunk start stop nCores - 1)

/-- The `subRanges` slice built by the source, in append order. -/
def partitions (start stop : Int) (nCores : Nat) : List (Int × Int) :=
  (List.range nCores).map (partitionOf start stop nCores)

/-- The ascending row indices visited by the loop
`for row := lo; row < hi+1; row++`. -/
def rowsOf (lo hi : Int) : List Int :=
  (List.range (hi + 1 - lo).toNat).map (fun k : Nat => lo + (k : Int))

/-- Per-row test of the scan loop: equality mode compares with
`IsEqualFunc(val, lower)`; range mode is
`!IsLessThanFunc(val, lower) && (IsLessThanFunc(val, upper) || IsEqualFunc(val, upper))`. -/
def rowMatch (s : Series α) (equalCheck : Bool) (lower upper : α) (row : Int) : Bool :=
  let val := s.value row
  if equalCheck then s.isEqualFunc val lower
  else !s.isLessThanFunc val lower && (s.isLessThanFunc val upper || s.isEqualFunc val upper)

/-- Rows actually processed (fetched and tested) by one scanner: all of its
sub-range when the context is never observed cancelled, otherwise the rows
strictly before the first per-row check that observes the cancellation. -/
def scanned (lo hi : Int) (t : Option Int) : List Int :=
  match t with
  | none => rowsOf lo hi
  | some t => (rowsOf lo hi).takeWhile (fun r => decide (r < t))

/-- Error returned by one scanner: the context error exactly when some
iteration of its loop observes the cancellation. -/
def scanErr (lo hi : Int) (t : Option Int) : Option Err :=
  match t with
  | none => none
  | some t => if (rowsOf lo hi).all (fun r => decide (r < t)) then none else some Err.cancelled

/-- The `rowsFound` list committed by scanner `i`: processed rows of its
sub-range that pass the per-row test. -/
def partFound (s : Series α) (equalCheck : Bool) (lower upper : α)
    (start stop : Int) (nCores : Nat) (stops : Nat → Option Int) (i : Nat) : List Int :=
  (scanned (partitionOf start stop nCores i).1 (partitionOf start stop nCores i).2 (stops i)).filter
    (rowMatch s equalCheck lower upper)

/-- The error returned by scanner `i`. -/
def partErr (start stop : Int) (nCores : Nat) (stops : Nat → Option Int) (i : Nat) : Option Err :=
  scanErr (partitionOf start stop nCores i).1 (partitionOf start stop nCores i).2 (stops i)

/-- The final merge: each scanner commits `(i, rowsFound)` into `mapRows`
in completion order `sched`; the aggregation then reads `mapRows[i]` for
`i = 0, ..., nCores-1` and appends. -/
def mergeWithSchedule (found : Nat → List Int) (nCores : Nat) (sched : List Nat) : List Int :=
  (List.range nCores).flatMap fun i =>
    ((sched.map fun j => (j, found j)).lookup i).getD []

/-- The embedded `Search`.  `deepEq` stands for
`cmp.Equal(lower, upper, cmpopts.IgnoreUnexported())`; `nCores` for
`runtime.NumCPU()`; `stops` for the per-scanner context observations and
`sched` for the scanner completion order (see the file comment). -/
def Search (s : Series α) (deepEq : α → α → Bool) (lower upper : α)
    (r : List Range) (nCores : Nat) (stops : Nat → Option Int) (sched : List Nat) :
    List Int × Option Err :=
  match (headRange r).Limits s.nrows with
  | Except.error e => ([], some e)
  | Except.ok (start, stop) =>
      (mergeWithSchedule (partFound s (deepEq lower upper) lower upper start stop nCores stops)
        nCores sched,
       if ((List.range nCores).map (partErr start stop nCores stops)).any Option.isSome
       then some Err.cancelled else none)

/-- Trace of the rows whose value `Search` fetches through `s.Value`,
across all scanners. -/
def searchScanned (s : Series α) (r : List Range) (nCores : Nat)
    (stops : Nat → Option Int) : List Int :=
  match (headRange r).Limits s.nrows with
  | Except.error _ => []
  | Except.ok (start, stop) =>
      (List.range nCores).flatMap fun i =>
        scanned (partitionOf start stop nCores i).1 (partitionOf start stop nCores i).2 (stops i)

/-- A strictly sequential single-pass scan over the resolved range,
following the spec's words: walk the rows of `[start, stop]` in ascending
order and keep those passing the per-row test. -/
def seqScan (s : Series α) (equalCheck : Bool) (lower upper : α) (start stop : Int) : List Int :=
  (rowsOf start stop).filter (rowMatch s equalCheck lower upper)

/-- A concrete series used by the witnesses: the spec's example column
`[5, 3, 9, 3, 7]`. -/
def exampleSeries : Series Int :=
  Series.mk 5 (fun r => [(5 : Int), 3, 9, 3, 7].getD r.toNat 0)
    (fun a b => decide (a = b)) (fun a b => decide (a < b))

/-- Structural deep equality on `Int` values, standing for `cmp.Equal`. -/
def intDeepEq : Int → Int → Bool := fun a b => decide (a = b)

/-! ### Basic lemmas about the scan rows -/

theorem mem_rowsOf {lo hi x : Int} : x ∈ rowsOf lo hi ↔ lo ≤ x ∧ x ≤ hi := by
  unfold rowsOf
  simp only [List.mem_map, List.mem_range]
  constructor
  · rintro ⟨k, hk, rfl⟩
    omega
  · rintro ⟨h1, h2⟩
    exact ⟨(x - lo).toNat, by omega, by omega⟩

theorem rowsOf_pairwise (lo hi : Int) : (rowsOf lo hi).Pairwise (fun a b => a < b) := by
  unfold rowsOf
  refine List.pairwise_iff_getElem.mpr ?_
  intro i j hi hj hij
  simp only [List.getElem_map, List.getElem_range]
  simp only [List.length_map, List.length_range] at hi hj
  omega

theorem scanned_sublist (lo hi : Int) (t : Option Int) :
    (scanned lo hi t).Sublist (rowsOf lo hi) := by
  unfold scanned
  match t with
  | none => exact List.Sublist.refl _
  | some t => exact List.takeWhile_sublist _

theorem takeWhile_lt_eq_filter (t : Int) (l : List Int) (h : l.Pairwise (fun a b => a < b)) :
    l.takeWhile (fun r => decide (r < t)) = l.filter (fun r => decide (r < t)) := by
  induction l with
  | nil => rfl
  | cons a l ih =>
    rcases List.pairwise_cons.mp h with ⟨ha, hl⟩
    by_cases hat : a < t
    · simp only [List.takeWhile_cons, List.filter_cons, decide_eq_true hat, if_true, cond_true,
        ih hl]
    · have hnil : l.filter (fun r => decide (r < t)) = [] := by
        rw [List.filter_eq_nil_iff]
        intro x hx
        have := ha x hx
        simp only [decide_eq_true_eq]
        omega
      simp only [List.takeWhile_cons, List.filter_cons, decide_eq_false hat, if_false, cond_false,
        hnil]
      rfl

theorem scanned_some_eq_filter (lo hi t : Int) :
    scanned lo hi (some t) = (rowsOf lo hi).filter (fun r => decide (r < t)) :=
  takeWhile_lt_eq_filter t _ (rowsOf_pairwise lo hi)

theorem scanned_pairwise (lo hi : Int) (t : Option Int) :
    (scanned lo hi t).Pairwise (fun a b => a < b) :=
  (rowsOf_pairwise lo hi).sublist (scanned_sublist lo hi t)

theorem mem_scanned {lo hi : Int} {t : Option Int} {x : Int} (h : x ∈ scanned lo hi t) :
    lo ≤ x ∧ x ≤ hi :=
  mem_rowsOf.mp ((scanned_sublist lo hi t).subset h)

/-! ### Lemmas about the merge step -/

theorem lookup_map_self (f : Nat → List Int) (i : Nat) (sched : List Nat) (h : i ∈ sched) :
    (sched.map fun j => (j, f j)).lookup i = some (f i) := by
  induction sched with
  | nil => cases h
  | cons a l ih =>
    by_cases hia : i = a
    · subst hia
      simp [List.lookup]
    · rcases List.mem_cons.mp h with h' | h'
      · exact absurd h' hia
      · simpa [List.lookup, beq_false_of_ne hia] using ih h'

theorem lookup_map_none_or_self (f : Nat → List Int) (i : Nat) (sched : List Nat) :
    (sched.map fun j => (j, f j)).lookup i = none ∨
      (sched.map fun j => (j, f j)).lookup i = some (f i) := by
  induction sched with
  | nil => exact Or.inl rfl
  | cons a l ih =>
    by_cases hia : i = a
    · subst hia
      right
      simp [List.lookup]
    · simpa [List.lookup, beq_false_of_ne hia] using ih

theorem flatMap_congr {l : List Nat} {f g : Nat → List Int} (h : ∀ i ∈ l, f i = g i) :
    l.flatMap f = l.flatMap g := by
  induction l with
  | nil => rfl
  | cons a l ih =>
    rw [List.flatMap_cons, List.flatMap_cons, h a (List.mem_cons_self a l),
      ih fun i hi => h i (List.mem_cons_of_mem a hi)]

theorem flatMap_sublist {l : List Nat} {f g : Nat → List Int}
    (h : ∀ i ∈ l, (f i).Sublist (g i)) : (l.flatMap f).Sublist (l.flatMap g) := by
  induction l with
  | nil => exact List.Sublist.refl _
  | cons a l ih =>
    rw [List.flatMap_cons, List.flatMap_cons]
    exact (h a (List.mem_cons_self a l)).append (ih fun i hi => h i (List.mem_cons_of_mem a hi))

theorem mergeWithSchedule_eq_flatMap (found : Nat → List Int) (nCores : Nat)
    (sched : List Nat) (h : sched.Perm (List.range nCores)) :
    mergeWithSchedule found nCores sched = (List.range nCores).flatMap found := by
  unfold mergeWithSchedule
  refine flatMap_congr fun i hi => ?_
  rw [lookup_map_self found i sched (h.mem_iff.mpr hi)]
  rfl

theorem mergeWithSchedule_eq_nil (found : Nat → List Int) (nCores : Nat) (sched : List Nat)
    (h : ∀ i, i < nCores → found i = []) :
    mergeWithSchedule found nCores sched = [] := by
  unfold mergeWithSchedule
  have : ∀ i ∈ List.range nCores,
      ((sched.map fun j => (j, found j)).lookup i).getD [] = ([] : List Int) := by
    intro i hi
    rcases lookup_map_none_or_self found i sched with h' | h'
    · rw [h']
      rfl
    · rw [h', h i (List.mem_range.mp hi)]
      rfl
  rw [flatMap_congr this]
  simp

/-! ### Partition arithmetic -/

theorem limits_ok {r : Range} {n : Nat} {a b : Int} (h : r.Limits n = Except.ok (a, b)) :
    0 ≤ a ∧ a ≤ b ∧ b < (n : Int) := by
  simp only [Range.Limits] at h
  split at h
  · rename_i hcond
    injection h with h'
    obtain ⟨h1, h2⟩ := Prod.mk.injEq .. ▸ h'
    subst h1
    subst h2
    exact hcond
  · cases h

theorem chunk_nonneg {start stop : Int} (nCores : Nat) (h : start ≤ stop) :
    0 ≤ chunk start stop nCores :=
  Int.ediv_nonneg (by omega) (by exact_mod_cast Nat.zero_le nCores)

theorem partitionOf_fst (start stop : Int) (nCores i : Nat) :
    (partitionOf start stop nCores i).1 = (i : Int) * chunk start stop nCores := by
  unfold partitionOf
  split <;> rfl

theorem partitionOf_snd_of_ne (start stop : Int) {nCores i : Nat} (h : i ≠ nCores - 1) :
    (partitionOf start stop nCores i).2 = ((i : Int) + 1) * chunk start stop nCores - 1 := by
  unfold partitionOf
  rw [if_neg h]

theorem partitionOf_snd_last (start stop : Int) (nCores : Nat) :
    (partitionOf start stop nCores (nCores - 1)).2 = stop := by
  unfold partitionOf
  rw [if_pos rfl]

/-- Any row of an earlier partition is strictly below any row of a later one. -/
theorem partition_cross {start stop : Int} {nCores i j : Nat} (hij : i < j) (hj : j < nCores)
    (hc : 0 ≤ chunk start stop nCores) {x y : Int}
    (hx : x ∈ rowsOf (partitionOf start stop nCores i).1 (partitionOf start stop nCores i).2)
    (hy : y ∈ rowsOf (partitionOf start stop nCores j).1 (partitionOf start stop nCores j).2) :
    x < y := by
  have hi_ne : i ≠ nCores - 1 := by omega
  have hx2 := (mem_rowsOf.mp hx).2
  have hy1 := (mem_rowsOf.mp hy).1
  rw [partitionOf_snd_of_ne start stop hi_ne] at hx2
  rw [partitionOf_fst] at hy1
  have hcast : ((i : Int) + 1) ≤ (j : Int) := by exact_mod_cast hij
  have hmul : ((i : Int) + 1) * chunk start stop nCores ≤ (j : Int) * chunk start stop nCores :=
    mul_le_mul_of_nonneg_right hcast hc
  omega

/-- The first row of the last partition is still within the resolved range. -/
theorem last_partition_fst_le {start stop : Int} {nCores : Nat} (hn : 1 ≤ nCores)
    (h0 : 0 ≤ start) (h1 : start ≤ stop) :
    (partitionOf start stop nCores (nCores - 1)).1 ≤ stop := by
  rw [partitionOf_fst]
  have hc : 0 ≤ chunk start stop nCores := chunk_nonneg nCores h1
  have hne : ((nCores : Int)) ≠ 0 := by
    have : (1 : Int) ≤ (nCores : Int) := by exact_mod_cast hn
    omega
  have hdiv := Int.ediv_add_emod (stop - start + 1) (nCores : Int)
  have hmod := Int.emod_nonneg (stop - start + 1) hne
  have hcast : ((nCores - 1 : Nat) : Int) = (nCores : Int) - 1 := by
    have : (1 : Int) ≤ (nCores : Int) := by exact_mod_cast hn
    push_cast [Nat.cast_sub hn]
    ring
  rw [hcast]
  have hNmul : (nCores : Int) * chunk start stop nCores ≤ stop - start + 1 := by
    unfold chunk
    omega
  rcases eq_or_lt_of_le hc with h | h
  · rw [← h]
    simpa using h1.trans' h0
  · have hexp : ((nCores : Int) - 1) * chunk start stop nCores
        = (nCores : Int) * chunk start stop nCores - chunk start stop nCores := by ring
    omega

theorem pairwise_flatMap {l : List Nat} {f : Nat → List Int}
    (h1 : ∀ i ∈ l, (f i).Pairwise (fun a b => a < b))
    (h2 : l.Pairwise fun i j => ∀ x ∈ f i, ∀ y ∈ f j, x < y) :
    (l.flatMap f).Pairwise (fun a b => a < b) := by
  induction l with
  | nil => simp
  | cons a l ih =>
    rw [List.flatMap_cons, List.pairwise_append]
    refine ⟨h1 a (List.mem_cons_self a l),
      ih (fun i hi => h1 i (List.mem_cons_of_mem a hi)) h2.of_cons, ?_⟩
    intro x hx y hy
    rcases List.mem_flatMap.mp hy with ⟨j, hj, hyj⟩
    exact (List.pairwise_cons.mp h2).1 j hj x hx y hyj

/-! ### Unfolding lemmas for Search -/

theorem search_eq_of_error {s : Series α} {deepEq : α → α → Bool} {lower upper : α}
    {r : List Range} {nCores : Nat} {stops : Nat → Option Int} {sched : List Nat} {e : Err}
    (hL : (headRange r).Limits s.nrows = Except.error e) :
    Search s deepEq lower upper r nCores stops sched = ([], some e) := by
  unfold Search
  rw [hL]

theorem search_eq_of_ok {s : Series α} {deepEq : α → α → Bool} {lower upper : α}
    {r : List Range} {nCores : Nat} {stops : Nat → Option Int} {sched : List Nat}
    {start stop : Int} (hL : (headRange r).Limits s.nrows = Except.ok (start, stop)) :
    Search s deepEq lower upper r nCores stops sched =
      (mergeWithSchedule (partFound s (deepEq lower upper) lower upper start stop nCores stops)
        nCores sched,
       if ((List.range nCores).map (partErr start stop nCores stops)).any Option.isSome
       then some Err.cancelled else none) := by
  unfold Search
  rw [hL]

theorem searchScanned_eq_of_error {s : Series α} {r : List Range} {nCores : Nat}
    {stops : Nat → Option Int} {e : Err}
    (hL : (headRange r).Limits s.nrows = Except.error e) :
    searchScanned s r nCores stops = [] := by
  unfold searchScanned
  rw [hL]

theorem searchScanned_eq_of_ok {s : Series α} {r : List Range} {nCores : Nat}
    {stops : Nat → Option Int} {start stop : Int}
    (hL : (headRange r).Limits s.nrows = Except.ok (start, stop)) :
    searchScanned s r nCores stops =
      (List.range nCores).flatMap fun i =>
        scanned (partitionOf start stop nCores i).1 (partitionOf start stop nCores i).2
          (stops i) := by
  unfold searchScanned
  rw [hL]

theorem search_fst_of_ok {s : Series α} {deepEq : α → α → Bool} {lower upper : α}
    {r : List Range} {nCores : Nat} {stops : Nat → Option Int} {sched : List Nat}
    {start stop : Int} (hL : (headRange r).Limits s.nrows = Except.ok (start, stop)) :
    (Search s deepEq lower upper r nCores stops sched).1 =
      mergeWithSchedule (partFound s (deepEq lower upper) lower upper start stop nCores stops)
        nCores sched := by
  rw [search_eq_of_ok hL]

theorem search_snd_of_ok {s : Series α} {deepEq : α → α → Bool} {lower upper : α}
    {r : List Range} {nCores : Nat} {stops : Nat → Option Int} {sched : List Nat}
    {start stop : Int} (hL : (headRange r).Limits s.nrows = Except.ok (start, stop)) :
    (Search s deepEq lower upper r nCores stops sched).2 =
      (if ((List.range nCores).map (partErr start stop nCores stops)).any Option.isSome
       then some Err.cancelled else none) := by
  rw [search_eq_of_ok hL]

theorem rowMatch_true (s : Series α) (lower upper : α) (row : Int) :
    rowMatch s true lower upper row = s.isEqualFunc (s.value row) lower := rfl

theorem rowMatch_false (s : Series α) (lower upper : α) (row : Int) :
    rowMatch s false lower upper row =
      (!s.isLessThanFunc (s.value row) lower &&
        (s.isLessThanFunc (s.value row) upper || s.isEqualFunc (s.value row) upper)) := rfl

theorem filter_flatMap (l : List Nat) (f : Nat → List Int) (p : Int → Bool) :
    (l.flatMap f).filter p = l.flatMap fun i => (f i).filter p := by
  induction l with
  | nil => rfl
  | cons a l ih => rw [List.flatMap_cons, List.flatMap_cons, List.filter_append, ih]

/-- The found-rows component of an invocation is exactly the trace of processed
rows filtered by the per-row test. -/
theorem search_fst_eq_filter {s : Series α} {deepEq : α → α → Bool} {lower upper : α}
    {r : List Range} {nCores : Nat} {stops : Nat → Option Int} {sched : List Nat}
    (hsched : sched.Perm (List.range nCores)) :
    (Search s deepEq lower upper r nCores stops sched).1 =
      (searchScanned s r nCores stops).filter (rowMatch s (deepEq lower upper) lower upper) := by
  cases hL : (headRange r).Limits s.nrows with
  | error e =>
    rw [search_eq_of_error hL, searchScanned_eq_of_error hL]
    rfl
  | ok p =>
    obtain ⟨start, stop⟩ := p
    rw [search_fst_of_ok hL, searchScanned_eq_of_ok hL,
      mergeWithSchedule_eq_flatMap _ _ _ hsched, filter_flatMap]
    exact flatMap_congr fun i _ => rfl

/-! ### Claim theorems -/

/-- C3: for every invocation of Search — any arguments, any worker count, any
per-scanner cancellation observations, and any order in which the scanners
commit their partials — the returned index list is strictly ascending by row
index and therefore contains no duplicates: the partials are concatenated in
ascending partition-index order without any sort or deduplication step. -/
theorem search_result_ascending_nodup {α : Type} (s : Series α) (deepEq : α → α → Bool)
    (lower upper : α) (r : List Range) (nCores : Nat) (stops : Nat → Option Int)
    (sched : List Nat) (hsched : sched.Perm (List.range nCores)) :
    (Search s deepEq lower upper r nCores stops sched).1.Pairwise (fun a b => a < b) := by
  cases hL : (headRange r).Limits s.nrows with
  | error e =>
    rw [search_eq_of_error hL]
    exact List.Pairwise.nil
  | ok p =>
    obtain ⟨start, stop⟩ := p
    obtain ⟨h0, h1, h2⟩ := limits_ok hL
    rw [search_fst_of_ok hL, mergeWithSchedule_eq_flatMap _ _ _ hsched]
    have hc : 0 ≤ chunk start stop nCores := chunk_nonneg nCores h1
    apply pairwise_flatMap
    · intro i _
      exact List.Pairwise.sublist (List.filter_sublist _) (scanned_pairwise _ _ _)
    · refine List.pairwise_iff_getElem.mpr ?_
      intro i j hi hj hij
      simp only [List.length_range] at hi hj
      simp only [List.getElem_range]
      intro x hx y hy
      have hx' := (scanned_sublist _ _ _).subset ((List.filter_sublist _).subset hx)
      have hy' := (scanned_sublist _ _ _).subset ((List.filter_sublist _).subset hy)
      exact partition_cross hij hj hc hx' hy'

/-- C3 witness. -/
theorem search_result_ascending_nodup_witness :
    (List.range 2).Perm (List.range 2) ∧
      (Search exampleSeries intDeepEq 3 7 [] 2 (fun _ => none)
        (List.range 2)).1.Pairwise (fun a b => a < b) :=
  ⟨List.Perm.refl _,
    search_result_ascending_nodup exampleSeries intDeepEq 3 7 [] 2 (fun _ => none)
      (List.range 2) (List.Perm.refl _)⟩

/-- C4: when the deep-equality capability reports lower and upper equal, Search
runs in equality mode and the result is exactly the rows it scans whose value is
equal to that single target under the column's equality capability. -/
theorem search_equality_mode {α : Type} (s : Series α) (deepEq : α → α → Bool)
    (lower upper : α) (r : List Range) (nCores : Nat) (stops : Nat → Option Int)
    (sched : List Nat) (hdeep : deepEq lower upper = true)
    (hsched : sched.Perm (List.range nCores)) :
    (Search s deepEq lower upper r nCores stops sched).1 =
      (searchScanned s r nCores stops).filter
        (fun row => s.isEqualFunc (s.value row) lower) := by
  rw [search_fst_eq_filter hsched, hdeep]
  exact List.filter_congr fun row _ => rowMatch_true s lower upper row

/-- C4 witness: the spec's example, column [5, 3, 9, 3, 7] with lower = upper = 3. -/
theorem search_equality_mode_witness :
    intDeepEq 3 3 = true ∧
      (Search exampleSeries intDeepEq 3 3 [] 2 (fun _ => none) (List.range 2)).1 =
        (searchScanned exampleSeries [] 2 (fun _ => none)).filter
          (fun row => exampleSeries.isEqualFunc (exampleSeries.value row) 3) :=
  ⟨by decide,
    search_equality_mode exampleSeries intDeepEq 3 3 [] 2 (fun _ => none) (List.range 2)
      (by decide) (List.Perm.refl _)⟩

/-- C5: in range mode (deep-equality reports lower and upper distinct) a scanned
row is in the result iff NOT (value < lower) AND (value < upper OR value ==
upper), using only the column's less-than and equality capabilities, so both
interval ends are inclusive. -/
theorem search_range_mode {α : Type} (s : Series α) (deepEq : α → α → Bool)
    (lower upper : α) (r : List Range) (nCores : Nat) (stops : Nat → Option Int)
    (sched : List Nat) (row : Int) (hdeep : deepEq lower upper = false)
    (hsched : sched.Perm (List.range nCores)) :
    row ∈ (Search s deepEq lower upper r nCores stops sched).1 ↔
      row ∈ searchScanned s r nCores stops ∧
        (s.isLessThanFunc (s.value row) lower = false ∧
          (s.isLessThanFunc (s.value row) upper = true ∨
            s.isEqualFunc (s.value row) upper = true)) := by
  rw [search_fst_eq_filter hsched, hdeep, List.mem_filter, rowMatch_false]
  simp only [Bool.and_eq_true, Bool.or_eq_true, Bool.not_eq_true']

/-- C5 witness: row 4 of the example column (value 7) is matched by the upper
bound inclusively. -/
theorem search_range_mode_witness :
    intDeepEq 3 7 = false ∧
      ((4 : Int) ∈ (Search exampleSeries intDeepEq 3 7 [] 2 (fun _ => none)
          (List.range 2)).1 ↔
        (4 : Int) ∈ searchScanned exampleSeries [] 2 (fun _ => none) ∧
          (exampleSeries.isLessThanFunc (exampleSeries.value 4) 3 = false ∧
            (exampleSeries.isLessThanFunc (exampleSeries.value 4) 7 = true ∨
              exampleSeries.isEqualFunc (exampleSeries.value 4) 7 = true))) :=
  ⟨by decide,
    search_range_mode exampleSeries intDeepEq 3 7 [] 2 (fun _ => none) (List.range 2) 4
      (by decide) (List.Perm.refl _)⟩

/-- C6: when the shared cancellation signal is observed by some scanner mid-scan,
Search returns a non-nil error, and the returned row indices are a sublist —
a subset in the same relative order — of the full uncancelled result for the
same arguments: each scanner stops at its per-row check but keeps the rows it
already found. -/
theorem search_cancelled_partial {α : Type} (s : Series α) (deepEq : α → α → Bool)
    (lower upper : α) (r : List Range) (nCores : Nat) (stops : Nat → Option Int)
    (sched : List Nat) (start stop : Int) (i : Nat)
    (hsched : sched.Perm (List.range nCores))
    (hL : (headRange r).Limits s.nrows = Except.ok (start, stop))
    (hi : i < nCores)
    (hcanc : partErr start stop nCores stops i = some Err.cancelled) :
    (Search s deepEq lower upper r nCores stops sched).2 = some Err.cancelled ∧
      (Search s deepEq lower upper r nCores stops sched).1.Sublist
        (Search s deepEq lower upper r nCores (fun _ => none) sched).1 := by
  constructor
  · rw [search_snd_of_ok hL]
    rw [if_pos]
    rw [List.any_eq_true]
    refine ⟨partErr start stop nCores stops i, List.mem_map.mpr
      ⟨i, List.mem_range.mpr hi, rfl⟩, ?_⟩
    rw [hcanc]
    rfl
  · rw [search_fst_of_ok hL, search_fst_of_ok hL,
      mergeWithSchedule_eq_flatMap _ _ _ hsched, mergeWithSchedule_eq_flatMap _ _ _ hsched]
    refine flatMap_sublist fun j _ => ?_
    exact List.Sublist.filter _ (scanned_sublist _ _ _)

/-- C6 witness: with 2 workers over the full example column, scanner 1 observes
the cancellation from row 3 onward; the partial result is a sublist of the full
one and the error is the cancellation error. -/
theorem search_cancelled_partial_witness :
    (headRange []).Limits exampleSeries.nrows = Except.ok (0, 4) ∧
      partErr 0 4 2 (fun _ => some 3) 1 = some Err.cancelled ∧
      (Search exampleSeries intDeepEq 3 7 [] 2 (fun _ => some 3) (List.range 2)).2 =
          some Err.cancelled ∧
        (Search exampleSeries intDeepEq 3 7 [] 2 (fun _ => some 3) (List.range 2)).1.Sublist
          (Search exampleSeries intDeepEq 3 7 [] 2 (fun _ => none) (List.range 2)).1 :=
  ⟨rfl, rfl,
    search_cancelled_partial exampleSeries intDeepEq 3 7 [] 2 (fun _ => some 3)
      (List.range 2) 0 4 1 (List.Perm.refl _) rfl (by decide) rfl⟩

/-- C7: when the bounds resolver reports the requested range as malformed or out
of bounds, Search returns no rows together with that error, and no row is ever
scanned — no value is fetched from the column. -/
theorem search_invalid_range {α : Type} (s : Series α) (deepEq : α → α → Bool)
    (lower upper : α) (r : List Range) (nCores : Nat) (stops : Nat → Option Int)
    (sched : List Nat) (e : Err)
    (hL : (headRange r).Limits s.nrows = Except.error e) :
    Search s deepEq lower upper r nCores stops sched = ([], some e) ∧
      searchScanned s r nCores stops = [] :=
  ⟨search_eq_of_error hL, searchScanned_eq_of_error hL⟩

/-- C7 witness: the spec's example, requested range (start 10, end 2) on the
5-row column. -/
theorem search_invalid_range_witness :
    (headRange [Range.mk (some 10) (some 2)]).Limits exampleSeries.nrows =
        Except.error Err.invalidRange ∧
      Search exampleSeries intDeepEq 3 7 [Range.mk (some 10) (some 2)] 2 (fun _ => none)
          (List.range 2) = ([], some Err.invalidRange) ∧
        searchScanned exampleSeries [Range.mk (some 10) (some 2)] 2 (fun _ => none) = [] :=
  ⟨rfl,
    search_invalid_range exampleSeries intDeepEq 3 7 [Range.mk (some 10) (some 2)] 2
      (fun _ => none) (List.range 2) Err.invalidRange rfl⟩

/-- C8: at most the first element of the variadic range list influences the
result — every range after the first is ignored — and when no range is supplied
the default range resolves to the full column extent. -/
theorem search_variadic_first_range {α : Type} (s : Series α) (deepEq : α → α → Bool)
    (lower upper : α) (nCores : Nat) (stops : Nat → Option Int) (sched : List Nat)
    (hn : 1 ≤ s.nrows) :
    (∀ (a : Range) (rest : List Range),
        Search s deepEq lower upper (a :: rest) nCores stops sched =
          Search s deepEq lower upper [a] nCores stops sched) ∧
      Search s deepEq lower upper [] nCores stops sched =
        Search s deepEq lower upper [Range.mk none none] nCores stops sched ∧
      (Range.mk none none).Limits s.nrows = Except.ok (0, (s.nrows : Int) - 1) := by
  refine ⟨fun a rest => rfl, rfl, ?_⟩
  have h1 : (1 : Int) ≤ (s.nrows : Int) := by exact_mod_cast hn
  simp only [Range.Limits, Option.getD_none]
  rw [if_pos]
  exact ⟨le_refl 0, by omega, by omega⟩

/-- C8 witness. -/
theorem search_variadic_first_range_witness :
    1 ≤ exampleSeries.nrows ∧
      (∀ (a : Range) (rest : List Range),
          Search exampleSeries intDeepEq 3 7 (a :: rest) 2 (fun _ => none) (List.range 2) =
            Search exampleSeries intDeepEq 3 7 [a] 2 (fun _ => none) (List.range 2)) ∧
        Search exampleSeries intDeepEq 3 7 [] 2 (fun _ => none) (List.range 2) =
          Search exampleSeries intDeepEq 3 7 [Range.mk none none] 2 (fun _ => none)
            (List.range 2) ∧
        (Range.mk none none).Limits exampleSeries.nrows =
          Except.ok (0, (exampleSeries.nrows : Int) - 1) :=
  ⟨by decide,
    search_variadic_first_range exampleSeries intDeepEq 3 7 2 (fun _ => none) (List.range 2)
      (by decide)⟩

/-- C9: Search is deterministic: the scanner completion order (the only
scheduler-dependent input) does not influence the returned value, so two
uncancelled invocations with identical arguments return identical,
identically-ordered results. -/
theorem search_deterministic {α : Type} (s : Series α) (deepEq : α → α → Bool)
    (lower upper : α) (r : List Range) (nCores : Nat) (stops : Nat → Option Int)
    (sched1 sched2 : List Nat)
    (h1 : sched1.Perm (List.range nCores)) (h2 : sched2.Perm (List.range nCores)) :
    Search s deepEq lower upper r nCores stops sched1 =
      Search s deepEq lower upper r nCores stops sched2 := by
  cases hL : (headRange r).Limits s.nrows with
  | error e => rw [search_eq_of_error hL, search_eq_of_error hL]
  | ok p =>
    obtain ⟨start, stop⟩ := p
    rw [search_eq_of_ok hL, search_eq_of_ok hL,
      mergeWithSchedule_eq_flatMap _ _ _ h1, mergeWithSchedule_eq_flatMap _ _ _ h2]

/-- C9 witness: the two possible completion orders of 2 scanners. -/
theorem search_deterministic_witness :
    [0, 1].Perm (List.range 2) ∧ [1, 0].Perm (List.range 2) ∧
      Search exampleSeries intDeepEq 3 7 [] 2 (fun _ => none) [0, 1] =
        Search exampleSeries intDeepEq 3 7 [] 2 (fun _ => none) [1, 0] :=
  ⟨by decide, by decide,
    search_deterministic exampleSeries intDeepEq 3 7 [] 2 (fun _ => none) [0, 1] [1, 0]
      (by decide) (by decide)⟩

/-- C10: if the cancellation signal is already active when Search is invoked on
a valid resolvable range over a non-empty column — so every scanner observes it
at its first per-row check — then Search returns an empty index list together
with the cancellation error, and no column value is ever fetched. -/
theorem search_precancelled {α : Type} (s : Series α) (deepEq : α → α → Bool)
    (lower upper : α) (r : List Range) (nCores : Nat) (stops : Nat → Option Int)
    (sched : List Nat) (start stop : Int)
    (hn : 1 ≤ nCores)
    (hL : (headRange r).Limits s.nrows = Except.ok (start, stop))
    (hstops : ∀ i, i < nCores → ∃ t, stops i = some t ∧
        t ≤ (partitionOf start stop nCores i).1) :
    Search s deepEq lower upper r nCores stops sched = ([], some Err.cancelled) ∧
      searchScanned s r nCores stops = [] := by
  obtain ⟨h0, h1, h2⟩ := limits_ok hL
  have hscan : ∀ i, i < nCores →
      scanned (partitionOf start stop nCores i).1 (partitionOf start stop nCores i).2
        (stops i) = [] := by
    intro i hi
    obtain ⟨t, ht, hle⟩ := hstops i hi
    rw [ht, scanned_some_eq_filter, List.filter_eq_nil_iff]
    intro x hx
    have hx1 := (mem_rowsOf.mp hx).1
    simp only [decide_eq_true_eq]
    omega
  have hlast : partErr start stop nCores stops (nCores - 1) = some Err.cancelled := by
    obtain ⟨t, ht, hle⟩ := hstops (nCores - 1) (by omega)
    unfold partErr
    rw [ht]
    simp only [scanErr]
    rw [if_neg]
    intro hall
    have hmem : (partitionOf start stop nCores (nCores - 1)).1 ∈
        rowsOf (partitionOf start stop nCores (nCores - 1)).1
          (partitionOf start stop nCores (nCores - 1)).2 := by
      rw [partitionOf_snd_last]
      exact mem_rowsOf.mpr ⟨le_refl _, last_partition_fst_le hn h0 h1⟩
    have := List.all_eq_true.mp hall _ hmem
    simp only [decide_eq_true_eq] at this
    omega
  refine ⟨?_, ?_⟩
  · have hfst : (Search s deepEq lower upper r nCores stops sched).1 = [] := by
      rw [search_fst_of_ok hL]
      refine mergeWithSchedule_eq_nil _ _ _ fun i hi => ?_
      unfold partFound
      rw [hscan i hi]
      rfl
    have hsnd : (Search s deepEq lower upper r nCores stops sched).2 = some Err.cancelled := by
      rw [search_snd_of_ok hL]
      rw [if_pos]
      rw [List.any_eq_true]
      refine ⟨partErr start stop nCores stops (nCores - 1), List.mem_map.mpr
        ⟨nCores - 1, List.mem_range.mpr (by omega), rfl⟩, ?_⟩
      rw [hlast]
      rfl
    calc Search s deepEq lower upper r nCores stops sched
        = ((Search s deepEq lower upper r nCores stops sched).1,
           (Search s deepEq lower upper r nCores stops sched).2) := rfl
      _ = ([], some Err.cancelled) := by rw [hfst, hsnd]
  · rw [searchScanned_eq_of_ok hL]
    have : ∀ i ∈ List.range nCores,
        scanned (partitionOf start stop nCores i).1 (partitionOf start stop nCores i).2
          (stops i) = ([] : List Int) :=
      fun i hi => hscan i (List.mem_range.mp hi)
    rw [flatMap_congr this]
    simp

/-- C10 witness: both scanners of a 2-way search over the full example column
observe the already-cancelled signal at their first check (threshold row 0). -/
theorem search_precancelled_witness :
    1 ≤ 2 ∧
      (headRange ([] : List Range)).Limits exampleSeries.nrows = Except.ok (0, 4) ∧
      (∀ i : Nat, i < 2 → ∃ t, (fun _ : Nat => some (0 : Int)) i = some t ∧
          t ≤ (partitionOf 0 4 2 i).1) ∧
      (Search exampleSeries intDeepEq 3 7 [] 2 (fun _ => some 0) (List.range 2) =
          ([], some Err.cancelled) ∧
        searchScanned exampleSeries [] 2 (fun _ => some 0) = []) :=
  ⟨by decide, rfl,
    fun i _ => ⟨0, rfl, by
      rw [partitionOf_fst]
      exact Int.mul_nonneg (Int.natCast_nonneg i) (by decide)⟩,
    search_precancelled exampleSeries intDeepEq 3 7 [] 2 (fun _ => some 0) (List.range 2) 0 4
      (by decide) rfl
      (fun i _ => ⟨0, rfl, by
        rw [partitionOf_fst]
        exact Int.mul_nonneg (Int.natCast_nonneg i) (by decide)⟩)⟩

/-- C1: code-bug evidence. For the resolved range (2, 5) with 2 workers the code
produces the partitions [(0, 1), (2, 5)]: contiguous, non-overlapping and
ascending, but their union is the row interval [0, 5], not the claimed
[start, end] = [2, 5] — `subStart = i * div` omits the `start` offset. -/
theorem partitions_omit_start_offset :
    partitions 2 5 2 = [(0, 1), (2, 5)] ∧
      (partitions 2 5 2).flatMap (fun p => rowsOf p.1 p.2) = [0, 1, 2, 3, 4, 5] ∧
      rowsOf 2 5 = [2, 3, 4, 5] ∧
      (partitions 2 5 2).flatMap (fun p => rowsOf p.1 p.2) ≠ rowsOf 2 5 :=
  ⟨rfl, rfl, rfl, by decide⟩

/-- C2: code-bug evidence. On the example column [5, 3, 9, 3, 7] with bounds
(3, 7), resolved sub-range (2, 4) and 2 workers, the uncancelled Search returns
[0, 1, 3, 4] while the strictly sequential single-pass scan over the same
resolved range returns [3, 4]: rows 0 and 1 lie outside the requested range but
are scanned because the partitioner omits the `start` offset. -/
theorem search_differs_from_seq_scan :
    intDeepEq 3 7 = false ∧
      (headRange [Range.mk (some 2) (some 4)]).Limits exampleSeries.nrows =
        Except.ok (2, 4) ∧
      Search exampleSeries intDeepEq 3 7 [Range.mk (some 2) (some 4)] 2 (fun _ => none)
          (List.range 2) = ([0, 1, 3, 4], none) ∧
      seqScan exampleSeries false 3 7 2 4 = [3, 4] ∧
      ([0, 1, 3, 4] : List Int) ≠ [3, 4] :=
  ⟨rfl, rfl, rfl, rfl, by decide⟩

end DataframeGo
